import Mathlib

/-!
# gofi: the incremental execution engine

A shallow embedding of `gofi.go` (package `main` of `lesiw/gofi`): the session
state, the program composer `session.write`, the compile/patch/retry loop
`session.exec`, the diagnostic pattern `builderr` and the output slicer
`session.newLines` / `stringSlice`.

Go strings are byte sequences.  They are modelled as lists of natural numbers
(each byte a number below 256).  Where Go looks at a string as a sequence of
runes (`for i, r := range s`, `[]rune(s)`, `string(runes)`), the embedding
decodes and encodes UTF-8 the way the Go runtime does.

The external tools (the file system, `imports.Process`, `go run`) are a
parameter of the embedding: a `Toolchain` gives, for each attempt, what the
tool answered.
-/

namespace Gofi

/-! ## Go strings -/

/-- A Go string: its bytes, in order. -/
abbrev GoString := List Nat

/-- The bytes of an ASCII string literal of the source. -/
def lit (s : String) : GoString := s.toList.map Char.toNat

/-- The newline byte, written `'\n'` in the source. -/
def NL : Nat := 10

/-- Go `strings.HasPrefix(s, pre)`. -/
def HasPrefix (s pre : GoString) : Bool := pre.isPrefixOf s

/-- Go `strings.HasSuffix(s, suf)`. -/
def HasSuffix (s suf : GoString) : Bool := suf.isSuffixOf s

/-- Go `strings.TrimSuffix(s, suf)`: `s` without the trailing `suf`, when it
ends with it, and `s` otherwise. -/
def TrimSuffix (s suf : GoString) : GoString :=
  if HasSuffix s suf then s.take (s.length - suf.length) else s

/-- Go `strings.Split(s, sep)` for a one-byte separator: the pieces of `s`
between the separators; one (empty) piece for the empty string. -/
def Split : GoString → Nat → List GoString
  | [], _ => [[]]
  | b :: bs, sep =>
    if b = sep then [] :: Split bs sep
    else
      match Split bs sep with
      | [] => [[b]]
      | l :: ls => (b :: l) :: ls

/-- Go `strings.Count(s, sep)` for a one-byte separator. -/
def Count (s : GoString) (sep : Nat) : Nat := s.count sep

/-- Go `strings.Contains(s, sub)`. -/
def Contains : GoString → GoString → Bool
  | [], sub => sub.isEmpty
  | b :: bs, sub => sub.isPrefixOf (b :: bs) || Contains bs sub

/-! ## UTF-8, as the Go runtime decodes and encodes it -/

/-- The replacement rune U+FFFD, `utf8.RuneError`. -/
def runeError : Nat := 0xFFFD

/-- A continuation byte: `locb <= b && b <= hicb`. -/
def isCont (b : Nat) : Bool := 0x80 ≤ b && b ≤ 0xBF

/-- The rune at the head of `s` and its width in bytes, as one step of
`for i, r := range s` finds them (the ASCII fast path, then the runtime's
`decoderune`).  Masks and shifts are written with `%` and `*`:
`b & mask2 = b % 32`, `b & mask3 = b % 16`, `b & mask4 = b % 8`,
`b & maskx = b % 64`, `x << 6 = x * 64`.  An invalid or truncated sequence
gives `(runeError, 1)`. -/
def decoderune : GoString → Nat × Nat
  | [] => (runeError, 1)
  | b0 :: t =>
    if b0 < 0x80 then (b0, 1)
    else if 0xC0 ≤ b0 ∧ b0 < 0xE0 then
      match t with
      | b1 :: _ =>
        if isCont b1 ∧ 0x7F < (b0 % 32) * 64 + b1 % 64 then
          ((b0 % 32) * 64 + b1 % 64, 2)
        else (runeError, 1)
      | _ => (runeError, 1)
    else if 0xE0 ≤ b0 ∧ b0 < 0xF0 then
      match t with
      | b1 :: b2 :: _ =>
        if isCont b1 ∧ isCont b2
            ∧ 0x7FF < (b0 % 16) * 4096 + (b1 % 64) * 64 + b2 % 64
            ∧ ¬ (0xD800 ≤ (b0 % 16) * 4096 + (b1 % 64) * 64 + b2 % 64
                ∧ (b0 % 16) * 4096 + (b1 % 64) * 64 + b2 % 64 ≤ 0xDFFF) then
          ((b0 % 16) * 4096 + (b1 % 64) * 64 + b2 % 64, 3)
        else (runeError, 1)
      | _ => (runeError, 1)
    else if 0xF0 ≤ b0 ∧ b0 < 0xF8 then
      match t with
      | b1 :: b2 :: b3 :: _ =>
        if isCont b1 ∧ isCont b2 ∧ isCont b3
            ∧ 0xFFFF < (b0 % 8) * 262144 + (b1 % 64) * 4096 + (b2 % 64) * 64 + b3 % 64
            ∧ (b0 % 8) * 262144 + (b1 % 64) * 4096 + (b2 % 64) * 64 + b3 % 64 ≤ 0x10FFFF then
          ((b0 % 8) * 262144 + (b1 % 64) * 4096 + (b2 % 64) * 64 + b3 % 64, 4)
        else (runeError, 1)
      | _ => (runeError, 1)
    else (runeError, 1)

/-- The pairs `(i, r)` that `for i, r := range s` visits: `i` the byte index
where the rune `r` starts.  `rangeFrom skip i s` walks the bytes of `s`, the
first of which has index `i`; `skip` counts the bytes still to pass over
because they belong to the rune decoded last. -/
def rangeFrom : Nat → Nat → GoString → List (Nat × Nat)
  | _, _, [] => []
  | 0, i, b :: bs =>
    (i, (decoderune (b :: bs)).1) :: rangeFrom ((decoderune (b :: bs)).2 - 1) (i + 1) bs
  | k + 1, i, _ :: bs => rangeFrom k (i + 1) bs

/-- The iteration `for i, r := range s`. -/
def stringRange (s : GoString) : List (Nat × Nat) := rangeFrom 0 0 s

/-- The conversion `[]rune(s)`. -/
def toRunes (s : GoString) : List Nat := (stringRange s).map Prod.snd

/-- The UTF-8 bytes of one rune, the runtime's `encoderune`: a rune above
`0x10FFFF` or in the surrogate range is written as `runeError`.
`byte(r >> 6) = r / 64`, `byte(r) & maskx = r % 64`. -/
def encoderune (r : Nat) : GoString :=
  if r ≤ 0x7F then [r]
  else if r ≤ 0x7FF then [0xC0 + r / 64, 0x80 + r % 64]
  else if 0x10FFFF < r ∨ (0xD800 ≤ r ∧ r ≤ 0xDFFF) then [0xEF, 0xBF, 0xBD]
  else if r ≤ 0xFFFF then [0xE0 + r / 4096, 0x80 + r / 64 % 64, 0x80 + r % 64]
  else [0xF0 + r / 262144, 0x80 + r / 4096 % 64, 0x80 + r / 64 % 64, 0x80 + r % 64]

/-- The conversion `string(runes)`. -/
def runesToString (rs : List Nat) : GoString := rs.flatMap encoderune

/-! ## The output slicer -/

/-- The function `stringSlice(s, start, end)`: the runes of `s` from `start` to `end`, as
a string; the empty string when an index is out of the rune range. -/
def stringSlice (s : GoString) (start stop : Int) : GoString :=
  if start < 0 ∨ start > ((toRunes s).length : Int) then []
  else if stop < 0 ∨ stop > ((toRunes s).length : Int) then []
  else if start > stop then []
  else runesToString (((toRunes s).take stop.toNat).drop start.toNat)

/-- The loop of `newLines` over the `(i, r)` pairs still to visit, with the
running `count`: `some i` when it breaks at byte index `i`, `none` when it
runs to the end of the string. -/
def newLinesLoop (off : Nat) : Nat → List (Nat × Nat) → Option Nat
  | _, [] => none
  | count, (i, r) :: rest =>
    if count ≥ off then some i
    else newLinesLoop off (if r = NL then count + 1 else count) rest

/-- The cut position `target` that `newLines` computes: a byte index. -/
def newLinesTarget (off : Nat) (output : GoString) : Nat :=
  (newLinesLoop off 0 (stringRange output)).getD output.length

/-- The method `session.newLines(output)` for a session whose offset is `off`. -/
def newLines (off : Nat) (output : GoString) : GoString :=
  stringSlice output (newLinesTarget off output) output.length

/-- The part of `o` that follows its `n`-th newline byte: all of `o` for
`n = 0`, nothing when `o` has fewer than `n` newlines.  These are the lines
of `o` from index `n` to the end. -/
def afterNewlines : Nat → GoString → GoString
  | 0, o => o
  | _ + 1, [] => []
  | n + 1, b :: o => if b = NL then afterNewlines n o else afterNewlines (n + 1) o

/-! ## The diagnostic pattern -/

/-- The constant `unused`. -/
def unused : GoString := lit "declared and not used: "

/-- The constant `foundEOF`: the text `found`, a blank, and `EOF` between two
single quotes (byte 39). -/
def foundEOF : GoString := lit "found " ++ [39] ++ lit "EOF" ++ [39]

/-- The class `\s` of Go regular expressions: tab, newline, form feed,
carriage return, blank. -/
def isSpace (b : Nat) : Bool := b = 9 || b = 10 || b = 12 || b = 13 || b = 32

/-- The class `\d` of Go regular expressions. -/
def isDigit (b : Nat) : Bool := 48 ≤ b && b ≤ 57

/-- The class `[^\s:]`. -/
def isNameByte (b : Nat) : Bool := !isSpace b && b != 58

/-- The four groups of a match of `builderr`. -/
structure Submatch where
  file : GoString
  line : GoString
  col : GoString
  msg : GoString
deriving DecidableEq

/-- The tail `\s*(.+)$` of `builderr`, matched against the text after the
third colon: group 4.  The greedy `\s*` takes the whole leading run of
whitespace; when nothing is left for `.+` it gives its last byte back.  `.`
does not match a newline, and `$` is the end of the text. -/
def matchMessage (r : GoString) : Option GoString :=
  match r.dropWhile isSpace with
  | [] =>
    match (r.takeWhile isSpace).getLast? with
    | none => none
    | some c => if c = NL then none else some [c]
  | c :: m => if NL ∈ c :: m then none else some (c :: m)

/-- A greedy run `x+` followed by a colon: the run (not empty) and the text
after the colon. -/
def runThenColon (p : Nat → Bool) (r : GoString) : Option (GoString × GoString) :=
  match r.takeWhile p, r.dropWhile p with
  | _ :: _, 58 :: rest => some (r.takeWhile p, rest)
  | _, _ => none

/-- The call `builderr.FindStringSubmatch(line)` for
`builderr = ^(\./[^\s:]+):(\d+):(\d+):\s*(.+)$`: the groups of the match, or
`none` when the line does not match. -/
def builderrFind (line : GoString) : Option Submatch :=
  match line with
  | 46 :: 47 :: r0 =>
    match runThenColon isNameByte r0 with
    | none => none
    | some (name, r1) =>
      match runThenColon isDigit r1 with
      | none => none
      | some (ln, r2) =>
        match runThenColon isDigit r2 with
        | none => none
        | some (col, r3) =>
          match matchMessage r3 with
          | none => none
          | some msg => some ⟨46 :: 47 :: name, ln, col, msg⟩
  | _ => none

/-! ## The session and the external tools -/

/-- The struct `session`; `usr` is the text written to the builder so far.
The offset `off` is never negative: it starts at 0 and `exec` only assigns
it a `strings.Count`. -/
structure Session where
  dir : GoString
  pth : GoString
  src : GoString
  off : Nat
  usr : GoString
deriving DecidableEq

/-- The errors `exec` returns. -/
inductive ExecError where
  /-- The error `fmt.Errorf("failed to write file: %w", err)`. -/
  | writeFailed (cause : GoString)
  /-- The sentinel `errEOF`. -/
  | errEOF
  /-- The error `fmt.Errorf("failed to process imports: %w", err)`. -/
  | importsFailed (cause : GoString)
  /-- The error `errors.New(text)`. -/
  | new (text : GoString)
deriving DecidableEq

/-- What the external tools answer at attempt number `k` of one call of
`exec` (the attempts are numbered from 0).  Each answer may depend on the
attempt and on the text the tool is given. -/
structure Toolchain where
  /-- The writes of `s.write`, given the composed text: `none` when they
  succeed, the error otherwise. -/
  create : Nat → GoString → Option GoString
  /-- The call `imports.Process(s.pth, nil, nil)`, given the text of the
  file: the formatted text, or the text of the error. -/
  process : Nat → GoString → Except GoString GoString
  /-- The call `os.WriteFile(s.pth, buf, 0644)`: `none` on success. -/
  writeFile : Nat → GoString → Option GoString
  /-- The call `cmd.CombinedOutput()` of `go run`, given the text of the
  file: the output, and whether `err != nil`. -/
  run : Nat → GoString → GoString × Bool

/-- The text `session.write(input)` writes when no write fails. -/
def write (s : Session) (input : GoString) : GoString :=
  s.src ++ lit "\nfunc main() \x7b\n" ++ s.usr ++ input ++ lit "\x7d"

/-- The test `strings.HasPrefix(lines[len(lines)-1], "exit status ")` on
`lines := strings.Split(strings.TrimSuffix(output, "\n"), "\n")`. -/
def exitStatusLast (output : GoString) : Bool :=
  HasPrefix ((Split (TrimSuffix output [NL]) NL).getLastD []) (lit "exit status ")

/-- One iteration of the loop over the lines of the output: the flag `fixed`
and the builder `fixes` after the line. -/
def scanLine (st : Bool × GoString) (line : GoString) : Bool × GoString :=
  match builderrFind line with
  | some m =>
    if HasPrefix m.msg unused then
      (true, st.2 ++ (lit "_ = " ++ m.msg.drop unused.length ++ [NL]))
    else st
  | none => st

/-- The loop `for _, line := range strings.Split(output, "\n")`, started with
`fixed = false` and the builder `fixes`. -/
def scanOutput (fixes output : GoString) : Bool × GoString :=
  (Split output NL).foldl scanLine (false, fixes)

/-- What `exec` has done when it returns: the error (`none` for `nil`), the
text printed on standard output, and the session. -/
structure ExecResult where
  err : Option ExecError
  printed : GoString
  session : Session
deriving DecidableEq

/-- The end of one pass through the body of `exec` below the label `rerun`:
a return, or `goto rerun` with the fix buffer. -/
inductive PassResult where
  | ret (r : ExecResult)
  | rerun (fixes : GoString)
deriving DecidableEq

/-- The part of a pass after `cmd.CombinedOutput()` returned `output`, with
`failed` for `err != nil`. -/
def afterRun (s : Session) (input fixes output : GoString) (failed : Bool) : PassResult :=
  if failed then
    if exitStatusLast output then
      .ret ⟨some (.new (TrimSuffix (newLines s.off output) [NL])), [], s⟩
    else if (scanOutput fixes output).1 then
      .rerun (scanOutput fixes output).2
    else
      .ret ⟨some (.new (TrimSuffix output [NL])), [], s⟩
  else
    .ret ⟨none,
      (if TrimSuffix (newLines s.off output) [NL] ≠ [] then
        TrimSuffix (newLines s.off output) [NL] ++ [NL] else []),
      { s with usr := s.usr ++ input, off := Count output NL }⟩

/-- One pass through the body of `exec` from the label `rerun`: attempt
number `k`, with `input` already ended by its newline and the fix buffer
`fixes`. -/
def execPass (tc : Toolchain) (s : Session) (input : GoString) (k : Nat)
    (fixes : GoString) : PassResult :=
  match tc.create k (write s (input ++ fixes)) with
  | some e => .ret ⟨some (.writeFailed e), [], s⟩
  | none =>
    match tc.process k (write s (input ++ fixes)) with
    | .error e =>
      if Contains e foundEOF then .ret ⟨some .errEOF, [], s⟩
      else .ret ⟨some (.importsFailed e), [], s⟩
    | .ok buf =>
      match tc.writeFile k buf with
      | some e => .ret ⟨some (.writeFailed e), [], s⟩
      | none => afterRun s input fixes (tc.run k buf).1 (tc.run k buf).2

/-- The loop of `exec` (the jumps to `rerun`), cut after `fuel` passes:
`none` when `exec` has not returned by then. -/
def execLoop (tc : Toolchain) (s : Session) (input : GoString) :
    Nat → Nat → GoString → Option ExecResult
  | 0, _, _ => none
  | fuel + 1, k, fixes =>
    match execPass tc s input k fixes with
    | .ret r => some r
    | .rerun fixes2 => execLoop tc s input fuel (k + 1) fixes2

/-- The call `s.exec(input)`, given at most `fuel` passes: the fix buffer
starts empty and `input` gets its newline. -/
def exec (tc : Toolchain) (s : Session) (input : GoString) (fuel : Nat) :
    Option ExecResult :=
  execLoop tc s (input ++ [NL]) fuel 0 []

/-- The fix buffer at the start of pass number `n` of `s.exec(input)`, when
`exec` has not returned before it. -/
def fixesAt (tc : Toolchain) (s : Session) (input : GoString) : Nat → Option GoString
  | 0 => some []
  | n + 1 =>
    match fixesAt tc s input n with
    | none => none
    | some fixes =>
      match execPass tc s (input ++ [NL]) n fixes with
      | .ret _ => none
      | .rerun fixes2 => some fixes2

/-! ## Definitions used to state the properties -/

/-- A string of single-byte (ASCII) characters. -/
def IsASCII (s : GoString) : Prop := ∀ b ∈ s, b < 128

instance (s : GoString) : Decidable (IsASCII s) :=
  inferInstanceAs (Decidable (∀ b ∈ s, b < 128))

/-- A Unicode scalar value: at most `0x10FFFF` and not a surrogate. -/
def IsScalar (c : Nat) : Prop := c ≤ 0x10FFFF ∧ ¬ (0xD800 ≤ c ∧ c ≤ 0xDFFF)

instance (c : Nat) : Decidable (IsScalar c) :=
  inferInstanceAs (Decidable (c ≤ 0x10FFFF ∧ ¬ (0xD800 ≤ c ∧ c ≤ 0xDFFF)))

/-- The text composed for an attempt of `exec`: `input` with its newline,
then the fix buffer, given to `write`. -/
def attemptSource (s : Session) (input fixes : GoString) : GoString :=
  write s ((input ++ [NL]) ++ fixes)

/-- The answer of `go run` at attempt number `k` of `s.exec(input)`, made
with the fix buffer `fixes`: the output and whether `err != nil`; `none`
when a file write or the formatter fails, so that `go run` is not reached. -/
def attemptRun (tc : Toolchain) (s : Session) (input : GoString) (k : Nat)
    (fixes : GoString) : Option (GoString × Bool) :=
  match tc.create k (attemptSource s input fixes) with
  | some _ => none
  | none =>
    match tc.process k (attemptSource s input fixes) with
    | .error _ => none
    | .ok buf =>
      match tc.writeFile k buf with
      | some _ => none
      | none => some (tc.run k buf)

/-- The identifier `m[4][len(unused):]` of a line for which the loop of
`exec` writes a discard statement, `none` for a line it passes over. -/
def discardTarget (line : GoString) : Option GoString :=
  match builderrFind line with
  | some m => if HasPrefix m.msg unused then some (m.msg.drop unused.length) else none
  | none => none

/-- The discard statement `"_ = " + identifier + "\n"`. -/
def discardStmt (ident : GoString) : GoString := lit "_ = " ++ ident ++ [NL]

/-- The attempt number `k` of `s.exec(input)`, made with the fix buffer
`fixes`, is a compile failure with at least one line that has a discard
target. -/
def RecoverableAttempt (tc : Toolchain) (s : Session) (input : GoString) (k : Nat)
    (fixes : GoString) : Prop :=
  ∃ output, attemptRun tc s input k fixes = some (output, true)
    ∧ exitStatusLast output = false
    ∧ ∃ line ∈ Split output NL, ∃ ident, discardTarget line = some ident

/-- Every attempt that `s.exec(input)` makes on the toolchain, with the fix
buffer it has then, is a compile failure with at least one line that has a
discard target. -/
def AlwaysRecoverable (tc : Toolchain) (s : Session) (input : GoString) : Prop :=
  ∀ (k : Nat) (fixes : GoString),
    fixesAt tc s input k = some fixes → RecoverableAttempt tc s input k fixes

/-- The composition as the specification words it: preamble, wrapper
opening, confirmed statements, pending fix statements, candidate statement,
wrapper closing. -/
def specCompose (s : Session) (candidate fixes : GoString) : GoString :=
  s.src ++ lit "\nfunc main() \x7b\n" ++ s.usr ++ fixes ++ candidate ++ lit "\x7d"

/-- The last non-empty line of a text, as the specification words the
runtime-failure marker (the empty string when every line is empty). -/
def lastNonEmptyLine (output : GoString) : GoString :=
  ((Split output NL).filter (fun l => !l.isEmpty)).getLastD []

/-- The runtime-failure test as the specification words it. -/
def specExitStatus (output : GoString) : Bool :=
  HasPrefix (lastNonEmptyLine output) (lit "exit status ")

/-- The message of a line of the shape the specification words: marker,
colon, line number, colon, column number, colon, one blank, message. -/
def specDiagnostic (line : GoString) : Option GoString :=
  match line with
  | 46 :: 47 :: r0 =>
    match runThenColon isNameByte r0 with
    | none => none
    | some (_, r1) =>
      match runThenColon isDigit r1 with
      | none => none
      | some (_, r2) =>
        match runThenColon isDigit r2 with
        | none => none
        | some (_, r3) =>
          match r3 with
          | 32 :: c :: msg => if NL ∈ c :: msg then none else some (c :: msg)
          | _ => none
  | _ => none

/-- The discard statements for the lines of the specification's shape whose
message begins with `unused`, in output order. -/
def specDiscards (output : GoString) : List GoString :=
  (Split output NL).filterMap fun line =>
    match specDiagnostic line with
    | some msg =>
      if HasPrefix msg unused then some (discardStmt (msg.drop unused.length)) else none
    | none => none

/-- A line the loop of `exec` writes the discard of `ident` for: the marker
`./name`, a colon, digits, a colon, digits, a colon, any run of whitespace,
the text `unused`, and `ident`. -/
def IsUnusedLine (line ident : GoString) : Prop :=
  ∃ name ln col ws : GoString,
    line = 46 :: 47 :: (name ++ 58 :: (ln ++ 58 :: (col ++ 58 :: (ws ++ (unused ++ ident)))))
      ∧ name ≠ [] ∧ (∀ b ∈ name, isNameByte b = true)
      ∧ ln ≠ [] ∧ (∀ b ∈ ln, isDigit b = true)
      ∧ col ≠ [] ∧ (∀ b ∈ col, isDigit b = true)
      ∧ (∀ b ∈ ws, isSpace b = true)
      ∧ NL ∉ ident

/-! ## Sessions and toolchains of the examples -/

/-- A toolchain whose file operations succeed and whose formatter returns
the text unchanged; `go run` answers by `run`. -/
def plainTool (run : Nat → GoString → GoString × Bool) : Toolchain :=
  ⟨fun _ _ => none, fun _ t => .ok t, fun _ _ => none, run⟩

/-- A fresh session: the preamble `package main`, no statement, offset 0. -/
def freshSession : Session :=
  ⟨lit "/tmp/gofi1", lit "/tmp/gofi1/main.go", lit "package main", 0, []⟩

/-- The compiler output for an unused variable `x`. -/
def unusedX : GoString :=
  lit "# command-line-arguments\n./main.go:3:2: declared and not used: x\n"

/-- A compiler that rejects the program until it holds the discard of `x`,
then runs it with no output. -/
def toolUnusedX : Toolchain :=
  plainTool fun _ t => if Contains t (lit "_ = x") then ([], false) else (unusedX, true)

/-- A compiler that rejects the first attempt for the unused `x`; the second
attempt compiles and the program exits with status 1 after printing `boom`. -/
def toolThenPanic : Toolchain :=
  plainTool fun k _ => if k = 0 then (unusedX, true) else (lit "boom\nexit status 1\n", true)

/-- A program that prints `boom` and exits with status 1. -/
def toolPanic : Toolchain :=
  plainTool fun _ _ => (lit "boom\nexit status 1\n", true)

/-- A compiler that reports the unused `x` as long as the program holds the
statement `x := 5`, whatever discards follow it. -/
def toolAlwaysUnused : Toolchain :=
  plainTool fun _ t => if Contains t (lit "x := 5") then (unusedX, true) else ([], false)

/-- The runs of a program whose deferred print is cut off by `os.Exit(0)`:
the line `a` alone before the `defer` statement is there, the lines `a` and
`b` with it, and the line `a` alone once the program ends by `os.Exit(0)`. -/
def toolDefer : Toolchain :=
  plainTool fun _ t =>
    if Contains t (lit "os.Exit(0)") then (lit "a\n", false)
    else if Contains t (lit "defer") then (lit "a\nb\n", false)
    else (lit "a\n", false)

/-- The session after the turn `fmt.Println("a")` on `toolDefer`. -/
def sessionOneLine : Session :=
  { freshSession with off := 1, usr := lit "fmt.Println(\"a\")\n" }

/-- The session after the further turn `defer fmt.Println("b")`. -/
def sessionTwoLines : Session :=
  { freshSession with off := 2, usr := lit "fmt.Println(\"a\")\ndefer fmt.Println(\"b\")\n" }

/-- The session after the further turn `os.Exit(0)`. -/
def sessionAfterExit : Session :=
  { freshSession with
    off := 1, usr := lit "fmt.Println(\"a\")\ndefer fmt.Println(\"b\")\nos.Exit(0)\n" }

/-- What `exec` returns on `toolThenPanic` and on `toolPanic` from the fresh
session: the error with the text of the run, and the session as it was. -/
def panicResult : ExecResult :=
  ⟨some (.new (lit "boom\nexit status 1")), [], freshSession⟩

/-- What `exec` returns for `x := 5` on `toolUnusedX` from the fresh
session. -/
def unusedXResult : ExecResult :=
  ⟨none, [], { freshSession with usr := lit "x := 5\n", off := 0 }⟩

/-- An output whose last line is empty and whose last non-empty line is an
exit status line, after a line that reports the unused `x`. -/
def blankAfterExitStatus : GoString :=
  lit "./main.go:3:2: declared and not used: x\nexit status 1\n\n"

/-- A diagnostic for the unused `x` with no blank after the third colon. -/
def unusedNoBlank : GoString := lit "./main.go:3:2:declared and not used: x\n"

/-- A program that prints `é` (the bytes `C3 A9`) and exits with status 1. -/
def toolPanicAccent : Toolchain :=
  plainTool fun _ _ => ([0xC3, 0xA9, 10] ++ lit "exit status 1\n", true)

/-! ## Lemmas on the UTF-8 embedding -/

theorem decoderune_ascii (b : Nat) (t : GoString) (hb : b < 128) :
    decoderune (b :: t) = (b, 1) := by
  simp [decoderune, hb]

theorem rangeFrom_ascii (s : GoString) (hs : IsASCII s) (i : Nat) :
    (rangeFrom 0 i s).map Prod.snd = s := by
  induction s generalizing i with
  | nil => simp [rangeFrom]
  | cons b bs ih =>
    have hb : b < 128 := hs b (List.mem_cons_self _ _)
    have hbs : IsASCII bs := fun x hx => hs x (List.mem_cons_of_mem _ hx)
    rw [rangeFrom, decoderune_ascii b bs hb]
    simp only [Nat.sub_self, List.map_cons]
    rw [ih hbs (i + 1)]

theorem toRunes_ascii (s : GoString) (hs : IsASCII s) : toRunes s = s :=
  rangeFrom_ascii s hs 0

theorem runesToString_ascii (s : GoString) (hs : IsASCII s) : runesToString s = s := by
  induction s with
  | nil => rfl
  | cons b bs ih =>
    have hb : b < 128 := hs b (List.mem_cons_self _ _)
    have hbs : IsASCII bs := fun x hx => hs x (List.mem_cons_of_mem _ hx)
    have h := ih hbs
    unfold runesToString at h ⊢
    rw [List.flatMap_cons, h]
    have : b ≤ 0x7F := by omega
    simp [encoderune, this]

/-- On an ASCII string the loop of `newLines` stops at the byte after the
newline number `off - count`. -/
theorem newLinesLoop_ascii (off : Nat) (s : GoString) (hs : IsASCII s) (i count : Nat) :
    i ≤ (newLinesLoop off count (rangeFrom 0 i s)).getD (i + s.length)
      ∧ (newLinesLoop off count (rangeFrom 0 i s)).getD (i + s.length) ≤ i + s.length
      ∧ s.drop ((newLinesLoop off count (rangeFrom 0 i s)).getD (i + s.length) - i)
          = afterNewlines (off - count) s := by
  induction s generalizing i count with
  | nil =>
    simp only [rangeFrom, newLinesLoop, Option.getD_none, List.length_nil, Nat.add_zero,
      Nat.sub_self, List.drop_nil, le_refl, true_and]
    cases off - count <;> rfl
  | cons b bs ih =>
    have hb : b < 128 := hs b (List.mem_cons_self _ _)
    have hbs : IsASCII bs := fun x hx => hs x (List.mem_cons_of_mem _ hx)
    rw [rangeFrom, decoderune_ascii b bs hb]
    simp only [Nat.sub_self, newLinesLoop, List.length_cons]
    by_cases hc : count ≥ off
    · have h0 : off - count = 0 := by omega
      simp [hc, h0, afterNewlines]
    · simp only [hc, if_false]
      have h := ih hbs (i + 1) (if b = NL then count + 1 else count)
      have e : i + (bs.length + 1) = i + 1 + bs.length := by omega
      rw [e]
      obtain ⟨h1, h2, h3⟩ := h
      refine ⟨by omega, h2, ?_⟩
      obtain ⟨d, hd⟩ : ∃ d, off - count = d + 1 := ⟨off - count - 1, by omega⟩
      generalize (newLinesLoop off (if b = NL then count + 1 else count)
        (rangeFrom 0 (i + 1) bs)).getD (i + 1 + bs.length) = v at h1 h2 h3 ⊢
      have e2 : v - i = (v - (i + 1)) + 1 := by omega
      rw [e2, List.drop_succ_cons, h3, hd, afterNewlines]
      by_cases hbn : b = NL
      · simp only [hbn, if_true]
        congr 1
        omega
      · simp only [hbn, if_false]
        rw [hd]

/-- On an ASCII output `newLines` returns the part after the newline number
`off`. -/
theorem newLines_ascii (off : Nat) (output : GoString) (hs : IsASCII output) :
    newLines off output = afterNewlines off output := by
  have h := newLinesLoop_ascii off output hs 0 0
  simp only [Nat.zero_add, Nat.sub_zero] at h
  obtain ⟨_, h2, h3⟩ := h
  unfold newLines stringSlice newLinesTarget stringRange
  rw [toRunes_ascii output hs]
  generalize (newLinesLoop off 0 (rangeFrom 0 0 output)).getD output.length = v at h2 h3 ⊢
  have g1 : ¬ ((v : Int) < 0 ∨ (v : Int) > (output.length : Int)) := by omega
  have g2 : ¬ ((output.length : Int) < 0 ∨ (output.length : Int) > (output.length : Int)) := by
    omega
  have g3 : ¬ ((v : Int) > (output.length : Int)) := by omega
  rw [if_neg g1, if_neg g2, if_neg g3, Int.toNat_ofNat, Int.toNat_ofNat, List.take_length,
    runesToString_ascii _ (fun b hb => hs b (List.mem_of_mem_drop hb)), h3]

theorem encoderune_length (c : Nat) :
    1 ≤ (encoderune c).length ∧ (128 ≤ c → 2 ≤ (encoderune c).length) := by
  unfold encoderune
  split_ifs <;> simp only [List.length_cons, List.length_nil] <;> omega

/-- Decoding the encoding of a scalar value gives it back, with the width of
its encoding. -/
theorem rangeFrom_encoderune (c : Nat) (hc : IsScalar c) (rest : GoString) (i : Nat) :
    rangeFrom 0 i (encoderune c ++ rest)
      = (i, c) :: rangeFrom 0 (i + (encoderune c).length) rest := by
  obtain ⟨h1, h2⟩ := hc
  by_cases c1 : c ≤ 0x7F
  · have e : encoderune c = [c] := by simp [encoderune, c1]
    rw [e]
    simp only [List.singleton_append, List.length_singleton]
    rw [rangeFrom, decoderune_ascii c rest (by omega)]
    rfl
  · by_cases c2 : c ≤ 0x7FF
    · have e : encoderune c = [0xC0 + c / 64, 0x80 + c % 64] := by simp [encoderune, c1, c2]
      rw [e]
      have d : decoderune ((0xC0 + c / 64) :: (0x80 + c % 64) :: rest) = (c, 2) := by
        have a1 : ¬ (0xC0 + c / 64 < 0x80) := by omega
        have a2 : 0xC0 ≤ 0xC0 + c / 64 ∧ 0xC0 + c / 64 < 0xE0 := by omega
        have a3 : (0xC0 + c / 64) % 32 * 64 + (0x80 + c % 64) % 64 = c := by omega
        have a4 : isCont (0x80 + c % 64) = true := by
          simp only [isCont, Bool.and_eq_true, decide_eq_true_eq]; omega
        simp only [decoderune, a1, a2, a3, a4, if_false, if_true, and_self, true_and]
        have a5 : 0x7F < c := by omega
        simp [a5]
      simp only [List.cons_append, List.nil_append, List.length_cons, List.length_nil]
      rw [rangeFrom, d]
      simp only [rangeFrom]
    · have c3 : ¬ (0x10FFFF < c ∨ (0xD800 ≤ c ∧ c ≤ 0xDFFF)) := by omega
      by_cases c4 : c ≤ 0xFFFF
      · have e : encoderune c = [0xE0 + c / 4096, 0x80 + c / 64 % 64, 0x80 + c % 64] := by
          simp [encoderune, c1, c2, c3, c4]
        rw [e]
        have d : decoderune ((0xE0 + c / 4096) :: (0x80 + c / 64 % 64) :: (0x80 + c % 64) :: rest)
            = (c, 3) := by
          have a1 : ¬ (0xE0 + c / 4096 < 0x80) := by omega
          have a2 : ¬ (0xC0 ≤ 0xE0 + c / 4096 ∧ 0xE0 + c / 4096 < 0xE0) := by omega
          have a2b : 0xE0 ≤ 0xE0 + c / 4096 ∧ 0xE0 + c / 4096 < 0xF0 := by omega
          have a3 : (0xE0 + c / 4096) % 16 * 4096 + (0x80 + c / 64 % 64) % 64 * 64
              + (0x80 + c % 64) % 64 = c := by omega
          have a4 : isCont (0x80 + c % 64) = true := by
            simp only [isCont, Bool.and_eq_true, decide_eq_true_eq]; omega
          have a4b : isCont (0x80 + c / 64 % 64) = true := by
            simp only [isCont, Bool.and_eq_true, decide_eq_true_eq]; omega
          simp only [decoderune, a1, a2, a2b, a3, a4, a4b, if_false, if_true, and_self, true_and]
          have a5 : 0x7FF < c ∧ ¬ (0xD800 ≤ c ∧ c ≤ 0xDFFF) := by omega
          simp [a5]
        simp only [List.cons_append, List.nil_append, List.length_cons, List.length_nil]
        rw [rangeFrom, d]
        simp only [rangeFrom]
      · have e : encoderune c
            = [0xF0 + c / 262144, 0x80 + c / 4096 % 64, 0x80 + c / 64 % 64, 0x80 + c % 64] := by
          simp [encoderune, c1, c2, c3, c4]
        rw [e]
        have d : decoderune ((0xF0 + c / 262144) :: (0x80 + c / 4096 % 64)
            :: (0x80 + c / 64 % 64) :: (0x80 + c % 64) :: rest) = (c, 4) := by
          have a1 : ¬ (0xF0 + c / 262144 < 0x80) := by omega
          have a2 : ¬ (0xC0 ≤ 0xF0 + c / 262144 ∧ 0xF0 + c / 262144 < 0xE0) := by omega
          have a2b : ¬ (0xE0 ≤ 0xF0 + c / 262144 ∧ 0xF0 + c / 262144 < 0xF0) := by omega
          have a2c : 0xF0 ≤ 0xF0 + c / 262144 ∧ 0xF0 + c / 262144 < 0xF8 := by omega
          have a3 : (0xF0 + c / 262144) % 8 * 262144 + (0x80 + c / 4096 % 64) % 64 * 4096
              + (0x80 + c / 64 % 64) % 64 * 64 + (0x80 + c % 64) % 64 = c := by omega
          have a4 : isCont (0x80 + c % 64) = true := by
            simp only [isCont, Bool.and_eq_true, decide_eq_true_eq]; omega
          have a4b : isCont (0x80 + c / 64 % 64) = true := by
            simp only [isCont, Bool.and_eq_true, decide_eq_true_eq]; omega
          have a4c : isCont (0x80 + c / 4096 % 64) = true := by
            simp only [isCont, Bool.and_eq_true, decide_eq_true_eq]; omega
          simp only [decoderune, a1, a2, a2b, a2c, a3, a4, a4b, a4c, if_false, if_true, and_self,
            true_and]
          have a5 : 0xFFFF < c ∧ c ≤ 0x10FFFF := by omega
          simp [a5]
        simp only [List.cons_append, List.nil_append, List.length_cons, List.length_nil]
        rw [rangeFrom, d]
        simp only [rangeFrom]

/-- Decoding a valid UTF-8 string, the encoding of the scalar values `cs`,
gives `cs` back. -/
theorem toRunes_runesToString (cs : List Nat) (hcs : ∀ c ∈ cs, IsScalar c) :
    toRunes (runesToString cs) = cs := by
  have key : ∀ (cs : List Nat), (∀ c ∈ cs, IsScalar c) → ∀ i,
      (rangeFrom 0 i (runesToString cs)).map Prod.snd = cs := by
    intro cs
    induction cs with
    | nil => intro _ i; simp [runesToString, rangeFrom]
    | cons c cs ih =>
      intro h i
      have hc : IsScalar c := h c (List.mem_cons_self _ _)
      have hcs : ∀ x ∈ cs, IsScalar x := fun x hx => h x (List.mem_cons_of_mem _ hx)
      have e : runesToString (c :: cs) = encoderune c ++ runesToString cs := by
        simp [runesToString]
      rw [e, rangeFrom_encoderune c hc, List.map_cons, ih hcs]
  exact key cs hcs 0

/-- A valid UTF-8 string with a multi-byte character has more bytes than
runes. -/
theorem runesToString_length (cs : List Nat) :
    cs.length ≤ (runesToString cs).length
      ∧ ((∃ c ∈ cs, 128 ≤ c) → cs.length < (runesToString cs).length) := by
  induction cs with
  | nil => simp [runesToString]
  | cons c cs ih =>
    have e : runesToString (c :: cs) = encoderune c ++ runesToString cs := by
      simp [runesToString]
    have hl := encoderune_length c
    rw [e, List.length_append, List.length_cons]
    refine ⟨by omega, ?_⟩
    rintro ⟨x, hx, hx2⟩
    rcases List.mem_cons.mp hx with h | h
    · subst h
      have := hl.2 hx2
      omega
    · have := ih.2 ⟨x, h, hx2⟩
      omega

/-- On a valid UTF-8 output with a multi-byte character `newLines` returns
the empty string: `len(output)` is beyond the rune range of `stringSlice`. -/
theorem newLines_multibyte (off : Nat) (cs : List Nat) (hcs : ∀ c ∈ cs, IsScalar c)
    (hm : ∃ c ∈ cs, 128 ≤ c) : newLines off (runesToString cs) = [] := by
  have hl := (runesToString_length cs).2 hm
  unfold newLines stringSlice
  rw [toRunes_runesToString cs hcs]
  split_ifs <;> first | rfl | (exfalso; omega)

/-! ## Lemmas on `exec` -/

theorem afterRun_ret (s : Session) (input fixes out : GoString) (failed : Bool)
    (r : ExecResult) (h : afterRun s input fixes out failed = .ret r) :
    (r.err ≠ none ∧ r.session = s ∧ failed = true)
      ∨ (r.err = none ∧ failed = false
          ∧ r.session = { s with usr := s.usr ++ input, off := Count out NL }) := by
  cases failed with
  | true =>
    left
    simp only [afterRun, if_true] at h
    split_ifs at h <;> (cases h; simp)
  | false =>
    right
    simp only [afterRun, Bool.false_eq_true, if_false] at h
    cases h
    simp

theorem execPass_ret (tc : Toolchain) (s : Session) (input : GoString) (k : Nat)
    (fixes : GoString) (r : ExecResult) (h : execPass tc s input k fixes = .ret r) :
    (r.err ≠ none ∧ r.session = s)
      ∨ (r.err = none ∧ ∃ buf, (tc.run k buf).2 = false
          ∧ r.session = { s with usr := s.usr ++ input, off := Count (tc.run k buf).1 NL }) := by
  unfold execPass at h
  split at h
  · left; cases h; simp
  · split at h
    · split_ifs at h <;> (left; cases h; simp)
    · rename_i buf _
      split at h
      · left; cases h; simp
      · rcases afterRun_ret _ _ _ _ _ _ h with ⟨h1, h2, _⟩ | ⟨h1, h2, h3⟩
        · exact Or.inl ⟨h1, h2⟩
        · exact Or.inr ⟨h1, buf, h2, h3⟩

theorem execLoop_some (tc : Toolchain) (s : Session) (input : GoString) (fuel : Nat) :
    ∀ (k : Nat) (fixes : GoString) (r : ExecResult),
      execLoop tc s input fuel k fixes = some r →
      ∃ j f, execPass tc s input j f = .ret r := by
  induction fuel with
  | zero => intro k fixes r h; simp [execLoop] at h
  | succ n ih =>
    intro k fixes r h
    rw [execLoop] at h
    split at h
    · rename_i r2 hp
      cases h
      exact ⟨k, fixes, hp⟩
    · exact ih _ _ _ h

theorem scanLine_eq (st : Bool × GoString) (line : GoString) :
    scanLine st line
      = match discardTarget line with
        | some ident => (true, st.2 ++ discardStmt ident)
        | none => st := by
  unfold scanLine discardTarget discardStmt
  cases builderrFind line with
  | none => rfl
  | some m =>
    simp only
    split_ifs <;> simp

/-- The loop over the lines: the flag is set when some line has a discard
target, and the builder gets the discard statements of the lines in order. -/
theorem foldl_scanLine (ls : List GoString) (st : Bool × GoString) :
    ls.foldl scanLine st
      = (st.1 || !(ls.filterMap discardTarget).isEmpty,
          st.2 ++ (ls.filterMap discardTarget).flatMap discardStmt) := by
  induction ls generalizing st with
  | nil => simp
  | cons l ls ih =>
    rw [List.foldl_cons, ih, scanLine_eq]
    cases h : discardTarget l with
    | none => simp [List.filterMap_cons, h]
    | some ident => simp [List.filterMap_cons, h, List.flatMap_cons]

theorem scanOutput_eq (fixes output : GoString) :
    scanOutput fixes output
      = (!((Split output NL).filterMap discardTarget).isEmpty,
          fixes ++ ((Split output NL).filterMap discardTarget).flatMap discardStmt) := by
  unfold scanOutput
  rw [foldl_scanLine]
  simp

theorem discardStmt_length (ident : GoString) : 0 < (discardStmt ident).length := by
  simp [discardStmt]

theorem flatMap_discardStmt_length (ids : List GoString) (h : ids ≠ []) :
    0 < (ids.flatMap discardStmt).length := by
  cases ids with
  | nil => exact absurd rfl h
  | cons i is =>
    rw [List.flatMap_cons, List.length_append]
    have := discardStmt_length i
    omega

/-- A pass that reaches `go run` ends as `afterRun` says. -/
theorem execPass_of_attemptRun (tc : Toolchain) (s : Session) (input : GoString) (k : Nat)
    (fixes output : GoString) (failed : Bool)
    (h : attemptRun tc s input k fixes = some (output, failed)) :
    execPass tc s (input ++ [NL]) k fixes = afterRun s (input ++ [NL]) fixes output failed := by
  unfold attemptRun attemptSource at h
  unfold execPass
  split at h
  · exact absurd h (by simp)
  · split at h
    · exact absurd h (by simp)
    · split at h
      · exact absurd h (by simp)
      · simp only [Option.some.injEq] at h
        rw [h]

/-- A pass that returns without error reached `go run`, which succeeded. -/
theorem execPass_ret_ok (tc : Toolchain) (s : Session) (input : GoString) (k : Nat)
    (fixes : GoString) (r : ExecResult)
    (h : execPass tc s (input ++ [NL]) k fixes = .ret r) (hok : r.err = none) :
    ∃ output, attemptRun tc s input k fixes = some (output, false)
      ∧ r.session = { s with usr := s.usr ++ (input ++ [NL]), off := Count output NL } := by
  unfold execPass at h
  unfold attemptRun attemptSource
  split at h
  · cases h; simp at hok
  · split at h
    · split_ifs at h <;> (cases h; simp at hok)
    · rename_i buf hp
      split at h
      · cases h; simp at hok
      · rcases afterRun_ret _ _ _ _ _ _ h with ⟨h1, _, _⟩ | ⟨_, h2, h3⟩
        · exact absurd hok h1
        · exact ⟨(tc.run k buf).1, by rw [← h2], h3⟩

/-- After `n` passes that all went to `rerun`, the loop of `exec` stands
at attempt number `n` with the fix buffer `fixesAt n`. -/
theorem exec_at_pass (tc : Toolchain) (s : Session) (input : GoString) (n : Nat) :
    ∀ (f : GoString), fixesAt tc s input n = some f →
      ∀ fuel, exec tc s input (n + fuel) = execLoop tc s (input ++ [NL]) fuel n f := by
  induction n with
  | zero =>
    intro f hf fuel
    simp only [fixesAt, Option.some.injEq] at hf
    subst hf
    simp [exec]
  | succ m ih =>
    intro g hg fuel
    rw [fixesAt] at hg
    split at hg
    · exact absurd hg (by simp)
    · rename_i f hf
      split at hg
      · exact absurd hg (by simp)
      · rename_i g2 hp
        simp only [Option.some.injEq] at hg
        subst hg
        have e : m + 1 + fuel = m + (fuel + 1) := by omega
        rw [e, ih f hf (fuel + 1), execLoop, hp]

/-- When `exec` returns, it returns what one of its passes returned: a pass
below `fuel`, made with the fix buffer the loop had then. -/
theorem exec_some_pass (tc : Toolchain) (s : Session) (input : GoString) (fuel : Nat)
    (r : ExecResult) (h : exec tc s input fuel = some r) :
    ∃ k fixes, k < fuel ∧ fixesAt tc s input k = some fixes
      ∧ execPass tc s (input ++ [NL]) k fixes = .ret r := by
  have key : ∀ (fuel k : Nat) (fixes : GoString), fixesAt tc s input k = some fixes →
      execLoop tc s (input ++ [NL]) fuel k fixes = some r →
      ∃ j f, j < k + fuel ∧ fixesAt tc s input j = some f
        ∧ execPass tc s (input ++ [NL]) j f = .ret r := by
    intro fuel
    induction fuel with
    | zero => intro k fixes _ hl; simp [execLoop] at hl
    | succ n ih =>
      intro k fixes hf hl
      rw [execLoop] at hl
      split at hl
      · rename_i r2 hp
        simp only [Option.some.injEq] at hl
        subst hl
        exact ⟨k, fixes, by omega, hf, hp⟩
      · rename_i f2 hp
        have hf2 : fixesAt tc s input (k + 1) = some f2 := by
          rw [fixesAt, hf]
          simp only [hp]
        obtain ⟨j, f, hj, hjf, hjp⟩ := ih (k + 1) f2 hf2 hl
        exact ⟨j, f, by omega, hjf, hjp⟩
  obtain ⟨j, f, hj, hjf, hjp⟩ := key fuel 0 [] rfl h
  exact ⟨j, f, by omega, hjf, hjp⟩

/-- A recoverable attempt goes to `rerun` with the discards of its output
appended to the fix buffer, which grows. -/
theorem execPass_recoverable (tc : Toolchain) (s : Session) (input : GoString) (k : Nat)
    (fixes : GoString) (h : RecoverableAttempt tc s input k fixes) :
    ∃ output, attemptRun tc s input k fixes = some (output, true)
      ∧ execPass tc s (input ++ [NL]) k fixes
          = .rerun (fixes ++ ((Split output NL).filterMap discardTarget).flatMap discardStmt)
      ∧ fixes.length
          < (fixes ++ ((Split output NL).filterMap discardTarget).flatMap discardStmt).length := by
  obtain ⟨output, hr, he, line, hl, ident, hid⟩ := h
  have hne : (Split output NL).filterMap discardTarget ≠ [] := by
    intro h0
    have : ident ∈ (Split output NL).filterMap discardTarget :=
      List.mem_filterMap.mpr ⟨line, hl, hid⟩
    rw [h0] at this
    exact List.not_mem_nil _ this
  refine ⟨output, hr, ?_, ?_⟩
  · rw [execPass_of_attemptRun tc s input k fixes output true hr]
    unfold afterRun
    rw [scanOutput_eq]
    cases hs : (Split output NL).filterMap discardTarget with
    | nil => exact absurd hs hne
    | cons a as => simp [he]
  · simp only [List.length_append]
    have := flatMap_discardStmt_length _ hne
    omega

theorem fixesAt_alwaysRecoverable (tc : Toolchain) (s : Session) (input : GoString)
    (h : AlwaysRecoverable tc s input) (n : Nat) : ∃ f, fixesAt tc s input n = some f := by
  induction n with
  | zero => exact ⟨[], rfl⟩
  | succ m ih =>
    obtain ⟨f, hf⟩ := ih
    obtain ⟨output, _, hp, _⟩ := execPass_recoverable tc s input m f (h m f hf)
    exact ⟨f ++ ((Split output NL).filterMap discardTarget).flatMap discardStmt,
      by rw [fixesAt, hf]; simp only [hp]⟩

theorem Contains_append (pre sub post : GoString) :
    Contains (pre ++ (sub ++ post)) sub = true := by
  induction pre with
  | nil =>
    cases h : sub ++ post with
    | nil =>
      have : sub = [] := (List.append_eq_nil.mp h).1
      subst this
      rfl
    | cons b bs =>
      have hp : sub.isPrefixOf (b :: bs) = true := by
        rw [← h, List.isPrefixOf_iff_prefix]
        exact List.prefix_append _ _
      rw [List.nil_append, Contains, hp]
      rfl
  | cons x pre ih =>
    rw [List.cons_append, Contains, ih]
    simp

/-! ## Lemmas on lines -/

theorem Split_ne_nil (t : GoString) (sep : Nat) : Split t sep ≠ [] := by
  cases t with
  | nil => simp [Split]
  | cons b t =>
    rw [Split]
    split_ifs
    · simp
    · split <;> simp

theorem Split_append_sep (pre rest : GoString) (sep : Nat) :
    Split (pre ++ sep :: rest) sep = Split pre sep ++ Split rest sep := by
  induction pre with
  | nil => simp [Split]
  | cons b pre ih =>
    rw [List.cons_append, Split, Split, ih]
    split_ifs
    · rfl
    · cases h : Split pre sep with
      | nil => exact absurd h (Split_ne_nil _ _)
      | cons l ls => rfl

theorem Split_no_sep (l : GoString) (sep : Nat) (h : sep ∉ l) : Split l sep = [l] := by
  induction l with
  | nil => rfl
  | cons b l ih =>
    have hb : ¬ b = sep := fun e => h (e ▸ List.mem_cons_self _ _)
    have hl : sep ∉ l := fun e => h (List.mem_cons_of_mem _ e)
    rw [Split, if_neg hb, ih hl]

theorem getLastD_append_of_ne_nil (xs ys : List GoString) (h : ys ≠ []) :
    (xs ++ ys).getLastD [] = ys.getLastD [] := by
  cases ys with
  | nil => exact absurd rfl h
  | cons y ys =>
    rw [List.getLastD_eq_getLast?, List.getLastD_eq_getLast?,
      List.getLast?_append_of_ne_nil _ (by simp)]

/-- The last piece of `Split` is the text after the last separator. -/
theorem Split_getLastD (t pre last : GoString) (ht : t = pre ++ last) (hl : NL ∉ last)
    (hp : pre = [] ∨ ∃ p, pre = p ++ [NL]) : (Split t NL).getLastD [] = last := by
  subst ht
  rcases hp with hp | ⟨p, hp⟩
  · subst hp
    simp [Split_no_sep last NL hl]
  · subst hp
    rw [List.append_assoc, List.singleton_append, Split_append_sep,
      getLastD_append_of_ne_nil _ _ (Split_ne_nil _ _), Split_no_sep last NL hl]
    rfl

/-- Every text is a part that is empty or ends with a newline, followed by a
last line without newline. -/
theorem exists_last_line (t : GoString) :
    ∃ pre last, t = pre ++ last ∧ NL ∉ last ∧ (pre = [] ∨ ∃ p, pre = p ++ [NL]) := by
  induction t with
  | nil => exact ⟨[], [], rfl, by simp, Or.inl rfl⟩
  | cons b t ih =>
    obtain ⟨pre, last, ht, hl, hp⟩ := ih
    rcases hp with hp | ⟨p, hp⟩
    · subst hp
      by_cases hb : b = NL
      · exact ⟨[NL], last, by simp [ht, hb], hl, Or.inr ⟨[], rfl⟩⟩
      · refine ⟨[], b :: last, by simp [ht], ?_, Or.inl rfl⟩
        intro hm
        rcases List.mem_cons.mp hm with h | h
        · exact hb h.symm
        · exact hl h
    · exact ⟨b :: pre, last, by simp [ht], hl, Or.inr ⟨b :: p, by simp [hp]⟩⟩

theorem Split_length (t : GoString) : (Split t NL).length = Count t NL + 1 := by
  induction t with
  | nil => rfl
  | cons b t ih =>
    rw [Split]
    by_cases hb : b = NL
    · subst hb
      simp [Count] at ih ⊢
      exact ih
    · rw [if_neg hb]
      cases h : Split t NL with
      | nil => exact absurd h (Split_ne_nil _ _)
      | cons l ls =>
        rw [h] at ih
        have hc : Count (b :: t) NL = Count t NL := by
          unfold Count
          exact List.count_cons_of_ne (fun e => hb e.symm) t
        simp only [List.length_cons] at ih ⊢
        omega

theorem Split_afterNewlines (n : Nat) (t : GoString) (h : n ≤ Count t NL) :
    Split (afterNewlines n t) NL = (Split t NL).drop n := by
  induction t generalizing n with
  | nil =>
    have : n = 0 := by simpa [Count] using h
    subst this
    rfl
  | cons b t ih =>
    cases n with
    | zero => rfl
    | succ n =>
      rw [afterNewlines, Split]
      by_cases hb : b = NL
      · subst hb
        have hc : n ≤ Count t NL := by
          simp [Count] at h ⊢
          exact h
        simp only [if_true, List.drop_succ_cons]
        exact ih n hc
      · have hc : n + 1 ≤ Count t NL := by
          unfold Count at h ⊢
          rwa [List.count_cons_of_ne (fun e => hb e.symm)] at h
        simp only [if_neg hb]
        rw [ih (n + 1) hc]
        cases hs : Split t NL with
        | nil => exact absurd hs (Split_ne_nil _ _)
        | cons l ls => rfl

theorem getLastD_drop (xs : List GoString) (n : Nat) (h : n < xs.length) :
    (xs.drop n).getLastD [] = xs.getLastD [] := by
  have e : xs = xs.take n ++ xs.drop n := (List.take_append_drop n xs).symm
  have hne : xs.drop n ≠ [] := by
    intro h0
    have := congrArg List.length h0
    simp at this
    omega
  conv_rhs => rw [e]
  rw [getLastD_append_of_ne_nil _ _ hne]

theorem afterNewlines_append (n : Nat) (p q : GoString) (h : n ≤ Count p NL) :
    afterNewlines n (p ++ q) = afterNewlines n p ++ q := by
  induction p generalizing n with
  | nil =>
    have : n = 0 := by simpa [Count] using h
    subst this
    cases q <;> rfl
  | cons b p ih =>
    cases n with
    | zero => rfl
    | succ n =>
      rw [List.cons_append, afterNewlines, afterNewlines]
      by_cases hb : b = NL
      · subst hb
        have hc : n ≤ Count p NL := by
          simp [Count] at h ⊢
          exact h
        simp only [if_true]
        exact ih n hc
      · have hc : n + 1 ≤ Count p NL := by
          unfold Count at h ⊢
          rwa [List.count_cons_of_ne (fun e => hb e.symm)] at h
        simp only [if_neg hb]
        exact ih (n + 1) hc

theorem afterNewlines_suffix (n : Nat) (t : GoString) : afterNewlines n t <:+ t := by
  induction t generalizing n with
  | nil => cases n <;> exact List.suffix_refl _
  | cons b t ih =>
    cases n with
    | zero => exact List.suffix_refl _
    | succ n =>
      rw [afterNewlines]
      split_ifs
      · exact (ih n).trans (List.suffix_cons _ _)
      · exact (ih (n + 1)).trans (List.suffix_cons _ _)

theorem HasSuffix_iff (x : GoString) : HasSuffix x [NL] = true ↔ ∃ p, x = p ++ [NL] := by
  unfold HasSuffix
  rw [List.isSuffixOf_iff_suffix]
  constructor
  · rintro ⟨p, hp⟩; exact ⟨p, hp.symm⟩
  · rintro ⟨p, hp⟩; exact ⟨p, hp.symm⟩

theorem TrimSuffix_append (p : GoString) : TrimSuffix (p ++ [NL]) [NL] = p := by
  have h : HasSuffix (p ++ [NL]) [NL] = true := (HasSuffix_iff _).mpr ⟨p, rfl⟩
  unfold TrimSuffix
  rw [if_pos h]
  simp

theorem TrimSuffix_of_not (x : GoString) (h : ¬ ∃ p, x = p ++ [NL]) : TrimSuffix x [NL] = x := by
  have h2 : ¬ HasSuffix x [NL] = true := fun e => h ((HasSuffix_iff _).mp e)
  unfold TrimSuffix
  rw [if_neg h2]

/-- Trimming the trailing newline commutes with cutting at a newline that
the trimmed text still has. -/
theorem TrimSuffix_afterNewlines (n : Nat) (out : GoString)
    (h : n ≤ Count (TrimSuffix out [NL]) NL) :
    TrimSuffix (afterNewlines n out) [NL] = afterNewlines n (TrimSuffix out [NL]) := by
  by_cases he : ∃ p, out = p ++ [NL]
  · obtain ⟨p, hp⟩ := he
    subst hp
    rw [TrimSuffix_append] at h ⊢
    rw [afterNewlines_append n p [NL] h, TrimSuffix_append]
  · rw [TrimSuffix_of_not out he] at h ⊢
    apply TrimSuffix_of_not
    rintro ⟨q, hq⟩
    obtain ⟨r, hr⟩ := afterNewlines_suffix n out
    exact he ⟨r ++ q, by rw [← hr, hq, List.append_assoc]⟩

/-! ## Lemmas on the diagnostic pattern -/

theorem takeWhile_append_stop (p : Nat → Bool) (xs : GoString) (y : Nat) (r : GoString)
    (hx : ∀ b ∈ xs, p b = true) (hy : p y = false) :
    (xs ++ y :: r).takeWhile p = xs ∧ (xs ++ y :: r).dropWhile p = y :: r := by
  induction xs with
  | nil => simp [List.takeWhile, List.dropWhile, hy]
  | cons x xs ih =>
    have h1 : p x = true := hx x (List.mem_cons_self _ _)
    have h2 := ih (fun b hb => hx b (List.mem_cons_of_mem _ hb))
    simp [List.takeWhile, List.dropWhile, h1, h2.1, h2.2]

theorem runThenColon_append (p : Nat → Bool) (xs r : GoString) (hne : xs ≠ [])
    (hx : ∀ b ∈ xs, p b = true) (hy : p 58 = false) :
    runThenColon p (xs ++ 58 :: r) = some (xs, r) := by
  obtain ⟨h1, h2⟩ := takeWhile_append_stop p xs 58 r hx hy
  unfold runThenColon
  rw [h1, h2]
  cases xs with
  | nil => exact absurd rfl hne
  | cons x xs => rfl

theorem runThenColon_some (p : Nat → Bool) (r xs rest : GoString)
    (h : runThenColon p r = some (xs, rest)) :
    r = xs ++ 58 :: rest ∧ xs ≠ [] ∧ ∀ b ∈ xs, p b = true := by
  unfold runThenColon at h
  have e := List.takeWhile_append_dropWhile p r
  split at h
  · rename_i a as rest2 h1 h2
    simp only [Option.some.injEq, Prod.mk.injEq] at h
    obtain ⟨hx, hr⟩ := h
    subst hr
    refine ⟨?_, ?_, ?_⟩
    · rw [← hx]
      conv_lhs => rw [← e]
      rw [h2]
    · rw [← hx, h1]; simp
    · intro b hb
      rw [← hx] at hb
      exact List.mem_takeWhile_imp hb
  · exact absurd h (by simp)

theorem unused_head : unused = 100 :: unused.tail := by decide

theorem NL_not_mem_unused : NL ∉ unused := by decide

theorem matchMessage_unused (ws ident : GoString) (hws : ∀ b ∈ ws, isSpace b = true)
    (hid : NL ∉ ident) : matchMessage (ws ++ (unused ++ ident)) = some (unused ++ ident) := by
  have hn : NL ∉ unused ++ ident := by
    intro hm
    rcases List.mem_append.mp hm with h1 | h1
    · exact NL_not_mem_unused h1
    · exact hid h1
  have e2 : unused ++ ident = 100 :: (unused.tail ++ ident) := by
    conv_lhs => rw [unused_head]
    rfl
  rw [e2] at hn ⊢
  have h := takeWhile_append_stop isSpace ws 100 (unused.tail ++ ident) hws (by decide)
  unfold matchMessage
  rw [h.2]
  simp only [hn, if_false]

theorem HasPrefix_iff (s pre : GoString) :
    HasPrefix s pre = true ↔ s = pre ++ s.drop pre.length := by
  unfold HasPrefix
  rw [List.isPrefixOf_iff_prefix]
  constructor
  · rintro ⟨t, ht⟩
    subst ht
    simp
  · intro h
    exact ⟨s.drop pre.length, h.symm⟩

theorem HasPrefix_length (s pre : GoString) (h : HasPrefix s pre = true) :
    pre.length ≤ s.length := by
  have e := congrArg List.length ((HasPrefix_iff s pre).mp h)
  rw [List.length_append] at e
  omega

theorem matchMessage_some_unused (r msg : GoString) (h : matchMessage r = some msg)
    (hp : HasPrefix msg unused = true) :
    ∃ ws, r = ws ++ msg ∧ (∀ b ∈ ws, isSpace b = true) ∧ NL ∉ msg := by
  unfold matchMessage at h
  have e := List.takeWhile_append_dropWhile isSpace r
  split at h
  · split at h
    · exact absurd h (by simp)
    · split_ifs at h
      simp only [Option.some.injEq] at h
      subst h
      have hl := HasPrefix_length _ _ hp
      have hu : unused.length = 23 := by decide
      rw [hu] at hl
      simp at hl
  · rename_i c m hd
    split_ifs at h with hn
    simp only [Option.some.injEq] at h
    subst h
    refine ⟨r.takeWhile isSpace, ?_, ?_, hn⟩
    · rw [← hd]; exact e.symm
    · intro b hb
      exact List.mem_takeWhile_imp hb

/-- The lines the loop of `exec` writes a discard statement for, and the
identifier it discards. -/
theorem discardTarget_iff (line ident : GoString) :
    discardTarget line = some ident ↔ IsUnusedLine line ident := by
  constructor
  · intro h
    unfold discardTarget at h
    split at h
    · rename_i m hm
      split_ifs at h with hp
      simp only [Option.some.injEq] at h
      unfold builderrFind at hm
      split at hm
      · rename_i r0
        split at hm
        · exact absurd hm (by simp)
        · rename_i name r1 h1
          split at hm
          · exact absurd hm (by simp)
          · rename_i ln r2 h2
            split at hm
            · exact absurd hm (by simp)
            · rename_i col r3 h3
              split at hm
              · exact absurd hm (by simp)
              · rename_i msg h4
                simp only [Option.some.injEq] at hm
                subst hm
                simp only at hp h
                obtain ⟨e1, n1, a1⟩ := runThenColon_some _ _ _ _ h1
                obtain ⟨e2, n2, a2⟩ := runThenColon_some _ _ _ _ h2
                obtain ⟨e3, n3, a3⟩ := runThenColon_some _ _ _ _ h3
                obtain ⟨ws, e4, a4, hn⟩ := matchMessage_some_unused _ _ h4 hp
                have em := (HasPrefix_iff _ _).mp hp
                rw [h] at em
                refine ⟨name, ln, col, ws, ?_, n1, a1, n2, a2, n3, a3, a4, ?_⟩
                · rw [e1, e2, e3, e4, em]
                · intro hi
                  apply hn
                  rw [em]
                  exact List.mem_append_right _ hi
      · exact absurd hm (by simp)
    · exact absurd h (by simp)
  · rintro ⟨name, ln, col, ws, e, n1, a1, n2, a2, n3, a3, a4, hn⟩
    subst e
    have hf : builderrFind
        (46 :: 47 :: (name ++ 58 :: (ln ++ 58 :: (col ++ 58 :: (ws ++ (unused ++ ident))))))
        = some ⟨46 :: 47 :: name, ln, col, unused ++ ident⟩ := by
      unfold builderrFind
      simp only [runThenColon_append isNameByte name _ n1 a1 (by decide),
        runThenColon_append isDigit ln _ n2 a2 (by decide),
        runThenColon_append isDigit col _ n3 a3 (by decide),
        matchMessage_unused ws ident a4 hn]
    unfold discardTarget
    rw [hf]
    have hp : HasPrefix (unused ++ ident) unused = true := by
      unfold HasPrefix
      rw [List.isPrefixOf_iff_prefix]
      exact List.prefix_append _ _
    simp only [hp, if_true, List.drop_left]

/-! ## The output slicer -/

/-- Claim C1, evaluated on the code: for the output `é`, newline (the bytes
`C3 A9 0A`) and the offset 0, `newLines` returns the empty string, while the
lines of that output from index 0 are the whole output. -/
theorem newLines_nonascii_output_lost :
    newLines 0 [0xC3, 0xA9, 10] = [] ∧ afterNewlines 0 [0xC3, 0xA9, 10] = [0xC3, 0xA9, 10] := by
  decide

/-- Claim C10: `newLines` takes a byte index for the rune index of
`stringSlice`.  For every output of single-byte (ASCII) characters and every
offset the result is the part of the output after its newline number `off`;
for every valid UTF-8 output (the encoding of scalar values `cs`) with at
least one multi-byte character the result is the empty string, for every
offset. -/
theorem newLines_byte_index_for_rune_index :
    (∀ (off : Nat) (output : GoString), IsASCII output →
        newLines off output = afterNewlines off output)
      ∧ (∀ (off : Nat) (cs : List Nat), (∀ c ∈ cs, IsScalar c) → (∃ c ∈ cs, 128 ≤ c) →
        newLines off (runesToString cs) = []) :=
  ⟨newLines_ascii, newLines_multibyte⟩

/-- Claim C10 at the outputs `a`, newline, `b` (offset 1) and `é`, newline
(offset 0). -/
theorem newLines_byte_index_for_rune_index_witness :
    newLines 1 (lit "a\nb") = afterNewlines 1 (lit "a\nb")
      ∧ newLines 0 (runesToString [0xE9, 10]) = [] :=
  ⟨newLines_byte_index_for_rune_index.1 1 (lit "a\nb") (by decide),
    newLines_byte_index_for_rune_index.2 0 [0xE9, 10] (by decide) ⟨0xE9, by decide, by decide⟩⟩

/-! ## The turn -/

/-- Claim C2: when `exec` returns an error, after any number of passes, the
confirmed-statement text `usr` and the offset `off` are what they were
before the call. -/
theorem exec_error_keeps_session (tc : Toolchain) (s : Session) (input : GoString) (fuel : Nat)
    (r : ExecResult) (h : exec tc s input fuel = some r) (herr : r.err ≠ none) :
    r.session.usr = s.usr ∧ r.session.off = s.off := by
  obtain ⟨j, f, hp⟩ := execLoop_some tc s _ fuel 0 [] r h
  rcases execPass_ret tc s _ j f r hp with ⟨_, hs⟩ | ⟨h1, _⟩
  · rw [hs]; exact ⟨rfl, rfl⟩
  · exact absurd h1 herr

/-- Claim C2 at a turn that retries once for an unused variable and then
fails at run time. -/
theorem exec_error_keeps_session_witness :
    exec toolThenPanic freshSession (lit "x := 5") 2 = some panicResult
      ∧ panicResult.err ≠ none
      ∧ panicResult.session.usr = freshSession.usr
      ∧ panicResult.session.off = freshSession.off :=
  ⟨by decide, by decide,
    exec_error_keeps_session toolThenPanic freshSession (lit "x := 5") 2 panicResult
      (by decide) (by decide)⟩

/-- Claim C3: when `exec` returns without error, the confirmed-statement
text is the text before the turn followed by the candidate statement and its
newline, and nothing of the fix buffer, whatever the number of passes. -/
theorem exec_success_appends_input (tc : Toolchain) (s : Session) (input : GoString)
    (fuel : Nat) (r : ExecResult) (h : exec tc s input fuel = some r) (hok : r.err = none) :
    r.session.usr = s.usr ++ (input ++ [NL]) := by
  obtain ⟨j, f, hp⟩ := execLoop_some tc s _ fuel 0 [] r h
  rcases execPass_ret tc s _ j f r hp with ⟨h1, _⟩ | ⟨_, buf, _, hs⟩
  · exact absurd hok h1
  · rw [hs]

/-- Claim C3 at the turn `x := 5`, which compiles only with the discard of
`x`: the discard is not stored. -/
theorem exec_success_appends_input_witness :
    exec toolUnusedX freshSession (lit "x := 5") 2 = some unusedXResult
      ∧ unusedXResult.err = none
      ∧ unusedXResult.session.usr = freshSession.usr ++ (lit "x := 5" ++ [NL]) :=
  ⟨by decide, by decide,
    exec_success_appends_input toolUnusedX freshSession (lit "x := 5") 2 unusedXResult
      (by decide) (by decide)⟩

/-- Claim C4, refuted as stated: three successful turns after which the
offset is 1, 2 and then 1 again.  The third statement, `os.Exit(0)`, keeps
the deferred print of the second from running. -/
theorem exec_offset_decreases :
    exec toolDefer freshSession (lit "fmt.Println(\"a\")") 1
        = some ⟨none, lit "a\n", sessionOneLine⟩
      ∧ exec toolDefer sessionOneLine (lit "defer fmt.Println(\"b\")") 1
        = some ⟨none, lit "b\n", sessionTwoLines⟩
      ∧ exec toolDefer sessionTwoLines (lit "os.Exit(0)") 1
        = some ⟨none, [], sessionAfterExit⟩
      ∧ sessionAfterExit.off < sessionTwoLines.off := by
  decide

/-- Claim C4, amended: a turn that returns an error leaves the offset as it
was; a turn that succeeds returns from one of its passes, made with the fix
buffer the loop had then, whose `go run` succeeded, and sets the offset to
the number of newline bytes of the output of that run (which may be below
the offset before). -/
theorem exec_offset_set_on_success (tc : Toolchain) (s : Session) (input : GoString)
    (fuel : Nat) (r : ExecResult) (h : exec tc s input fuel = some r) :
    (r.err ≠ none → r.session.off = s.off)
      ∧ (r.err = none → ∃ k fixes output, k < fuel
          ∧ fixesAt tc s input k = some fixes
          ∧ execPass tc s (input ++ [NL]) k fixes = .ret r
          ∧ attemptRun tc s input k fixes = some (output, false)
          ∧ r.session.off = Count output NL) := by
  obtain ⟨k, fixes, hk, hf, hp⟩ := exec_some_pass tc s input fuel r h
  constructor
  · intro herr
    rcases execPass_ret tc s _ k fixes r hp with ⟨_, hs⟩ | ⟨h1, _⟩
    · rw [hs]
    · exact absurd h1 herr
  · intro hok
    obtain ⟨output, hr, hs⟩ := execPass_ret_ok tc s input k fixes r hp hok
    exact ⟨k, fixes, output, hk, hf, hp, hr, by rw [hs]⟩

/-- Claim C4, amended, at the turn `os.Exit(0)`: its one attempt prints the
line `a`, and the offset goes from 2 to the newline count 1 of that output. -/
theorem exec_offset_set_on_success_witness :
    exec toolDefer sessionTwoLines (lit "os.Exit(0)") 1 = some ⟨none, [], sessionAfterExit⟩
      ∧ attemptRun toolDefer sessionTwoLines (lit "os.Exit(0)") 0 [] = some (lit "a\n", false)
      ∧ ∃ k fixes output, k < 1
          ∧ fixesAt toolDefer sessionTwoLines (lit "os.Exit(0)") k = some fixes
          ∧ execPass toolDefer sessionTwoLines (lit "os.Exit(0)" ++ [NL]) k fixes
              = .ret ⟨none, [], sessionAfterExit⟩
          ∧ attemptRun toolDefer sessionTwoLines (lit "os.Exit(0)") k fixes
              = some (output, false)
          ∧ sessionAfterExit.off = Count output NL :=
  ⟨by decide, by decide,
    (exec_offset_set_on_success toolDefer sessionTwoLines (lit "os.Exit(0)") 1
      ⟨none, [], sessionAfterExit⟩ (by decide)).2 rfl⟩

/-! ## The composer -/

/-- Claim C5, refuted as stated: for the candidate `x := 5` and the fix
buffer holding the discard of `x`, the text composed has the candidate before
the discard; the order of the claim would put the discard first. -/
theorem write_candidate_before_fixes :
    attemptSource freshSession (lit "x := 5") (lit "_ = x\n")
        = lit "package main\nfunc main() \x7b\nx := 5\n_ = x\n\x7d"
      ∧ specCompose freshSession (lit "x := 5" ++ [NL]) (lit "_ = x\n")
        = lit "package main\nfunc main() \x7b\n_ = x\nx := 5\n\x7d"
      ∧ attemptSource freshSession (lit "x := 5") (lit "_ = x\n")
        ≠ specCompose freshSession (lit "x := 5" ++ [NL]) (lit "_ = x\n") := by
  decide

/-- Claim C5, amended: the text composed for an attempt is the preamble, the
wrapper opening, the confirmed statements, the candidate statement with its
newline, the fix buffer, and the wrapper closing, in this order; and a pass
of `exec` gives the file writes and the formatter this text and no other. -/
theorem write_composes_in_order (s : Session) (input fixes : GoString) :
    attemptSource s input fixes
        = s.src ++ (lit "\nfunc main() \x7b\n" ++ (s.usr ++ ((input ++ [NL])
            ++ (fixes ++ lit "\x7d"))))
      ∧ ∀ (tc tc2 : Toolchain) (k : Nat),
          tc.create k (attemptSource s input fixes) = tc2.create k (attemptSource s input fixes) →
          tc.process k (attemptSource s input fixes)
            = tc2.process k (attemptSource s input fixes) →
          tc.writeFile k = tc2.writeFile k → tc.run k = tc2.run k →
          execPass tc s (input ++ [NL]) k fixes = execPass tc2 s (input ++ [NL]) k fixes := by
  refine ⟨by simp [attemptSource, write], ?_⟩
  intro tc tc2 k h1 h2 h3 h4
  unfold attemptSource at h1 h2
  unfold execPass
  rw [h1, h2, h3, h4]

/-- Claim C5, amended, at the second attempt of the turn `x := 5`. -/
theorem write_composes_in_order_witness :
    attemptSource freshSession (lit "x := 5") (lit "_ = x\n")
      = freshSession.src ++ (lit "\nfunc main() \x7b\n" ++ (freshSession.usr
          ++ ((lit "x := 5" ++ [NL]) ++ (lit "_ = x\n" ++ lit "\x7d")))) :=
  (write_composes_in_order freshSession (lit "x := 5") (lit "_ = x\n")).1

/-! ## The error paths -/

/-- Claim C6, refuted as stated: a program prints `boom` and exits with
status 1; the error `exec` returns holds the line `exit status 1`. -/
theorem exec_runtime_error_keeps_exit_status :
    exec toolPanic freshSession (lit "fmt.Println(\"boom\"); os.Exit(1)") 1 = some panicResult
      ∧ panicResult.err = some (.new (lit "boom\nexit status 1"))
      ∧ Contains (lit "boom\nexit status 1") (lit "exit status 1") = true := by
  decide

/-- Claim C6, amended: in a pass whose run fails with an ASCII output that
ends with an exit status line, the error text is the part of the output
after its newline number `off`, less one trailing newline, and the session
is unchanged.  The exit status line is not removed: when the offset is at
most the newline count of the trimmed output, the last line of the error
text is that line, and begins with `exit status `. -/
theorem exec_runtime_error_text (tc : Toolchain) (s : Session) (input : GoString) (k : Nat)
    (fixes buf output : GoString)
    (hc : tc.create k (write s (input ++ fixes)) = none)
    (hp : tc.process k (write s (input ++ fixes)) = .ok buf)
    (hw : tc.writeFile k buf = none)
    (hr : tc.run k buf = (output, true))
    (he : exitStatusLast output = true)
    (ha : IsASCII output) :
    execPass tc s input k fixes
        = .ret ⟨some (.new (TrimSuffix (afterNewlines s.off output) [NL])), [], s⟩
      ∧ (s.off ≤ Count (TrimSuffix output [NL]) NL →
          (Split (TrimSuffix (afterNewlines s.off output) [NL]) NL).getLastD []
              = (Split (TrimSuffix output [NL]) NL).getLastD []
            ∧ HasPrefix ((Split (TrimSuffix (afterNewlines s.off output) [NL]) NL).getLastD [])
                (lit "exit status ") = true) := by
  refine ⟨?_, ?_⟩
  · unfold execPass
    simp only [hc, hp, hw, hr]
    simp [afterRun, he, newLines_ascii _ _ ha]
  · intro hoff
    have e : (Split (TrimSuffix (afterNewlines s.off output) [NL]) NL).getLastD []
        = (Split (TrimSuffix output [NL]) NL).getLastD [] := by
      rw [TrimSuffix_afterNewlines _ _ hoff, Split_afterNewlines _ _ hoff,
        getLastD_drop _ _ (by rw [Split_length]; omega)]
    refine ⟨e, ?_⟩
    rw [e]
    exact he

/-- Claim C6, amended, at the program that prints `boom` and exits with
status 1: the error text is `boom`, newline, `exit status 1`. -/
theorem exec_runtime_error_text_witness :
    execPass toolPanic freshSession (lit "os.Exit(1)\n") 0 []
        = .ret ⟨some (.new (TrimSuffix (afterNewlines freshSession.off
            (lit "boom\nexit status 1\n")) [NL])), [], freshSession⟩
      ∧ TrimSuffix (afterNewlines freshSession.off (lit "boom\nexit status 1\n")) [NL]
        = lit "boom\nexit status 1"
      ∧ HasPrefix ((Split (TrimSuffix (afterNewlines freshSession.off
            (lit "boom\nexit status 1\n")) [NL]) NL).getLastD []) (lit "exit status ") = true :=
  have h := exec_runtime_error_text toolPanic freshSession (lit "os.Exit(1)\n") 0 []
    (write freshSession (lit "os.Exit(1)\n" ++ [])) (lit "boom\nexit status 1\n")
    rfl rfl rfl rfl (by decide) (by decide)
  ⟨h.1, by decide, (h.2 (by decide)).2⟩

/-- The byte index of `newLines` on the error path: for a program that
prints `é` and exits with status 1, the error `exec` returns has the empty
text, where the comment in `exec` says the program's error is returned. -/
theorem exec_runtime_error_nonascii_lost :
    exec toolPanicAccent freshSession (lit "os.Exit(1)") 1
      = some ⟨some (.new []), [], freshSession⟩ := by
  decide

/-- Claim C7, refuted as stated: the last non-empty line of the output
begins with `exit status `, but the output ends with an empty line; `exec`
takes the failure for a compile failure and goes to `rerun` with the discard
of `x`. -/
theorem exitStatus_blank_last_line :
    specExitStatus blankAfterExitStatus = true
      ∧ exitStatusLast blankAfterExitStatus = false
      ∧ afterRun freshSession (lit "x := 5\n") [] blankAfterExitStatus true
        = .rerun (lit "_ = x\n") := by
  decide

/-- Claim C7, amended: `exec` takes a failed run for a runtime failure if
and only if the last line of the output, once one trailing newline is
removed, begins with `exit status ` (this line may be empty), and for a
compile failure, whose lines are scanned, otherwise. -/
theorem exitStatusLast_iff (s : Session) (input fixes output : GoString) :
    (exitStatusLast output = true ↔
        ∃ pre last, TrimSuffix output [NL] = pre ++ last ∧ NL ∉ last
          ∧ (pre = [] ∨ ∃ p, pre = p ++ [NL])
          ∧ HasPrefix last (lit "exit status ") = true)
      ∧ (exitStatusLast output = true →
          afterRun s input fixes output true
            = .ret ⟨some (.new (TrimSuffix (newLines s.off output) [NL])), [], s⟩)
      ∧ (exitStatusLast output = false →
          afterRun s input fixes output true
            = if (scanOutput fixes output).1 then .rerun (scanOutput fixes output).2
              else .ret ⟨some (.new (TrimSuffix output [NL])), [], s⟩) := by
  refine ⟨?_, ?_, ?_⟩
  · constructor
    · intro h
      obtain ⟨pre, last, ht, hl, hp⟩ := exists_last_line (TrimSuffix output [NL])
      refine ⟨pre, last, ht, hl, hp, ?_⟩
      rw [← Split_getLastD _ pre last ht hl hp]
      exact h
    · rintro ⟨pre, last, ht, hl, hp, h⟩
      unfold exitStatusLast
      rw [Split_getLastD _ pre last ht hl hp]
      exact h
  · intro h
    simp [afterRun, h]
  · intro h
    simp [afterRun, h]

/-- Claim C7, amended, at an output that ends with an exit status line and
at one that ends with an empty line. -/
theorem exitStatusLast_iff_witness :
    afterRun freshSession (lit "x := 5\n") [] (lit "boom\nexit status 1\n") true
        = .ret ⟨some (.new (TrimSuffix (newLines freshSession.off (lit "boom\nexit status 1\n"))
            [NL])), [], freshSession⟩
      ∧ afterRun freshSession (lit "x := 5\n") [] blankAfterExitStatus true
        = if (scanOutput [] blankAfterExitStatus).1 then
            .rerun (scanOutput [] blankAfterExitStatus).2
          else .ret ⟨some (.new (TrimSuffix blankAfterExitStatus [NL])), [], freshSession⟩ :=
  ⟨(exitStatusLast_iff freshSession (lit "x := 5\n") [] (lit "boom\nexit status 1\n")).2.1
      (by decide),
    (exitStatusLast_iff freshSession (lit "x := 5\n") [] blankAfterExitStatus).2.2 (by decide)⟩

/-! ## The diagnostic scan -/

/-- Claim C8, refuted as stated: a line with no blank between the third
colon and the message is not of the shape of the claim, and `exec` writes a
discard statement for it. -/
theorem scan_accepts_line_without_blank :
    specDiscards unusedNoBlank = []
      ∧ scanOutput [] unusedNoBlank = (true, lit "_ = x\n")
      ∧ afterRun freshSession (lit "x := 5\n") [] unusedNoBlank true = .rerun (lit "_ = x\n") := by
  decide

/-- Claim C8, amended: on a compile-failure pass `exec` appends to the fix
buffer one discard statement `_ = identifier` for each output line made of
the marker `./name`, a colon, digits, a colon, digits, a colon, any run of
whitespace (none, one blank or more), the text `declared and not used: ` and
the identifier, in output order, and nothing for any other line; it goes to
`rerun` when it appended one and otherwise returns the raw output less one
trailing newline, the session unchanged. -/
theorem scan_appends_discards (s : Session) (input fixes output : GoString)
    (he : exitStatusLast output = false) :
    (∀ line ident, discardTarget line = some ident ↔ IsUnusedLine line ident)
      ∧ afterRun s input fixes output true
        = if (Split output NL).filterMap discardTarget = [] then
            .ret ⟨some (.new (TrimSuffix output [NL])), [], s⟩
          else
            .rerun (fixes ++ ((Split output NL).filterMap discardTarget).flatMap discardStmt) := by
  refine ⟨discardTarget_iff, ?_⟩
  unfold afterRun
  rw [scanOutput_eq]
  simp only [he, if_true, Bool.false_eq_true, if_false]
  cases h : (Split output NL).filterMap discardTarget with
  | nil => simp
  | cons a as => simp

/-- Claim C8, amended, at the compiler output for the unused `x`. -/
theorem scan_appends_discards_witness :
    exitStatusLast unusedX = false
      ∧ afterRun freshSession (lit "x := 5\n") [] unusedX true
        = if (Split unusedX NL).filterMap discardTarget = [] then
            .ret ⟨some (.new (TrimSuffix unusedX [NL])), [], freshSession⟩
          else
            .rerun ([] ++ ((Split unusedX NL).filterMap discardTarget).flatMap discardStmt) :=
  ⟨by decide, (scan_appends_discards freshSession (lit "x := 5\n") [] unusedX (by decide)).2⟩

/-! ## The retry loop -/

/-- Claim C9: the retry loop has no bound.  When every attempt that `exec`
makes, with the fix buffer it has then, is a compile failure with a line to
discard, `exec` has not returned after `n` passes, for every `n`: its loop
stands at attempt number `n` with a fix buffer `f`, and pass `n` goes to
`rerun` with a longer buffer, `f` followed by the discards of the output of
that attempt. -/
theorem exec_retry_unbounded (tc : Toolchain) (s : Session) (input : GoString)
    (h : AlwaysRecoverable tc s input) (n : Nat) :
    exec tc s input n = none
      ∧ ∃ f g output, fixesAt tc s input n = some f
          ∧ (∀ fuel, exec tc s input (n + fuel) = execLoop tc s (input ++ [NL]) fuel n f)
          ∧ attemptRun tc s input n f = some (output, true)
          ∧ g = f ++ ((Split output NL).filterMap discardTarget).flatMap discardStmt
          ∧ execPass tc s (input ++ [NL]) n f = .rerun g
          ∧ (∀ fuel, exec tc s input (n + 1 + fuel)
              = execLoop tc s (input ++ [NL]) fuel (n + 1) g)
          ∧ f.length < g.length := by
  obtain ⟨f, hf⟩ := fixesAt_alwaysRecoverable tc s input h n
  obtain ⟨output, hr, hp, hlen⟩ := execPass_recoverable tc s input n f (h n f hf)
  have hg : fixesAt tc s input (n + 1)
      = some (f ++ ((Split output NL).filterMap discardTarget).flatMap discardStmt) := by
    rw [fixesAt, hf]
    simp only [hp]
  have h0 := exec_at_pass tc s input n f hf 0
  rw [Nat.add_zero] at h0
  exact ⟨by rw [h0]; rfl, f, _, output, hf, exec_at_pass tc s input n f hf, hr, rfl, hp,
    exec_at_pass tc s input (n + 1) _ hg, hlen⟩

theorem toolAlwaysUnused_recoverable :
    AlwaysRecoverable toolAlwaysUnused freshSession (lit "x := 5") := by
  intro k fixes _
  have e : attemptSource freshSession (lit "x := 5") fixes
      = (freshSession.src ++ lit "\nfunc main() \x7b\n" ++ freshSession.usr)
        ++ (lit "x := 5" ++ ([NL] ++ fixes ++ lit "\x7d")) := by
    simp [attemptSource, write]
  have hc : Contains (attemptSource freshSession (lit "x := 5") fixes) (lit "x := 5") = true := by
    rw [e]
    exact Contains_append _ _ _
  have hr : attemptRun toolAlwaysUnused freshSession (lit "x := 5") k fixes
      = some (unusedX, true) := by
    simp [attemptRun, toolAlwaysUnused, plainTool, hc]
  have h1 : exitStatusLast unusedX = false := by decide
  have h2 : lit "./main.go:3:2: declared and not used: x" ∈ Split unusedX NL := by decide
  exact ⟨unusedX, hr, h1, lit "./main.go:3:2: declared and not used: x", h2, lit "x",
    by decide⟩

/-- Claim C9 at a compiler that reports the unused `x` as long as the
program holds `x := 5`, after 7 passes. -/
theorem exec_retry_unbounded_witness :
    AlwaysRecoverable toolAlwaysUnused freshSession (lit "x := 5")
      ∧ exec toolAlwaysUnused freshSession (lit "x := 5") 7 = none
      ∧ ∃ f g output, fixesAt toolAlwaysUnused freshSession (lit "x := 5") 7 = some f
          ∧ (∀ fuel, exec toolAlwaysUnused freshSession (lit "x := 5") (7 + fuel)
              = execLoop toolAlwaysUnused freshSession (lit "x := 5" ++ [NL]) fuel 7 f)
          ∧ attemptRun toolAlwaysUnused freshSession (lit "x := 5") 7 f = some (output, true)
          ∧ g = f ++ ((Split output NL).filterMap discardTarget).flatMap discardStmt
          ∧ execPass toolAlwaysUnused freshSession (lit "x := 5" ++ [NL]) 7 f = .rerun g
          ∧ (∀ fuel, exec toolAlwaysUnused freshSession (lit "x := 5") (7 + 1 + fuel)
              = execLoop toolAlwaysUnused freshSession (lit "x := 5" ++ [NL]) fuel (7 + 1) g)
          ∧ f.length < g.length :=
  ⟨toolAlwaysUnused_recoverable,
    exec_retry_unbounded toolAlwaysUnused freshSession (lit "x := 5")
      toolAlwaysUnused_recoverable 7⟩

end Gofi
